import Mathlib

/-!
Verification of the fog-of-war hex-grid board engine (`src/main.py`)
against its natural-language specification.

The embedding models the source's float arithmetic over the real numbers:
`math.sqrt(3)` becomes `Real.sqrt 3`, `abs` becomes `|·|`, and the widget's
drawing calls are dropped (they do not touch the board state).  Stateful
methods of `HexBoard` become functions from board states to board states.
-/

set_option autoImplicit false

open Classical

/-- The board state owned by the `HexBoard` widget: the fields set in
`HexBoard.__init__` (src/main.py lines 28-61) that the game logic reads.
`tile_centers` is the list rebuilt by `redraw`; `revealed` is the set of
visible tile indices; `token_tile` is the optional token position. -/
structure HexBoard where
  hex_size : ℝ
  rows_patterns : List ℕ
  tile_centers : List (ℝ × ℝ)
  token_tile : Option ℕ
  revealed : Finset ℕ
  start_visible_tile : ℕ
  developer_mode : Bool

/-- Total tile count of a row pattern: the sum of its entries.  In the source
this is implicit as `len(self.tile_centers)` after a `redraw`. -/
def totalTiles (rowsPattern : List ℕ) : ℕ :=
  rowsPattern.sum

/-- `HexBoard.__init__` (src/main.py lines 28-61): records the parameters,
starts with no tile centers and no token, and reveals exactly the starting
tile (`self.revealed.add(self.start_visible_tile)`).  The source performs no
validation of any argument and has no failure path. -/
def HexBoard.init (hex_size : ℝ) (rows_pattern : List ℕ) (start_visible_tile : ℕ)
    (developer : Bool) : HexBoard :=
  { hex_size := hex_size
    rows_patterns := rows_pattern
    tile_centers := []
    token_tile := none
    revealed := {start_visible_tile}
    start_visible_tile := start_visible_tile
    developer_mode := developer }

/-- `HexApp.build` (src/main.py lines 211-234), generalised over the constants
it hard-codes (`rows_pattern=[3,4,5,4,3]`, `hex_size=45`,
`start_visible_tile=7`): constructs the board and then sets the token on the
starting visible tile (`board.token_tile = start_visible_tile`).  This is the
spec's `initialize(rowPattern, hexSize, startTile)`. -/
def build (rowPattern : List ℕ) (hexSize : ℝ) (startTile : ℕ) : HexBoard :=
  let b := HexBoard.init hexSize rowPattern startTile true
  { b with token_tile := some startTile }

/-- `HexBoard.point_in_hex` (src/main.py lines 66-72): with `dx = |px - hx|`
and `dy = |py - hy|`, reject if `dy > size`, otherwise accept iff
`dx <= sqrt(3) * (size - dy)`. -/
def point_in_hex (px py hx hy size : ℝ) : Prop :=
  if |py - hy| > size then False
  else |px - hx| ≤ Real.sqrt 3 * (size - |py - hy|)

/-- One tile center of a row: `x = cx + row_offset_x + col * w_spacing`,
`y = start_y - row_idx * h_spacing` with `row_offset_x = -row_width / 2` and
`row_width = (count - 1) * w_spacing` (src/main.py lines 142-149). -/
noncomputable def rowCenters (cx startY wsp hsp : ℝ) (rowIdx count : ℕ) : List (ℝ × ℝ) :=
  (List.range count).map fun (col : ℕ) =>
    (cx + -(((count : ℝ) - 1) * wsp) / 2 + (col : ℝ) * wsp,
     startY - (rowIdx : ℝ) * hsp)

/-- The nested loop of `HexBoard.redraw` (src/main.py lines 141-149): rows are
laid out in order, appending each row's centers in column order. -/
noncomputable def layoutRows (cx startY wsp hsp : ℝ) : ℕ → List ℕ → List (ℝ × ℝ)
  | _, [] => []
  | rowIdx, count :: rest =>
      rowCenters cx startY wsp hsp rowIdx count ++
      layoutRows cx startY wsp hsp (rowIdx + 1) rest

/-- The tile-center computation of `HexBoard.redraw` (src/main.py lines
125-149): `w_spacing = hex_size * sqrt(3)`, `h_spacing = hex_size * 1.5`,
`cx, cy` the widget center, `start_y = cy + (rowCount - 1) * h_spacing / 2`,
then the nested row/column loop. -/
noncomputable def generateLayout (rowsPattern : List ℕ) (hexSize x y width height : ℝ) :
    List (ℝ × ℝ) :=
  layoutRows (x + width / 2)
    (y + height / 2 + ((rowsPattern.length : ℝ) - 1) * (hexSize * 1.5) / 2)
    (hexSize * Real.sqrt 3) (hexSize * 1.5) 0 rowsPattern

/-- `HexBoard.redraw` restricted to its state effect: it rebuilds
`tile_centers` from the row pattern, the hex size and the widget bounds
(src/main.py lines 125-149); drawing commands are rendering-only. -/
noncomputable def redraw (b : HexBoard) (x y width height : ℝ) : HexBoard :=
  { b with tile_centers := generateLayout b.rows_patterns b.hex_size x y width height }

/-- `HexBoard.get_neighbors` (src/main.py lines 77-93): every other index
whose center is at distance within tolerance 2 of either the horizontal
spacing `hex_size * sqrt(3)` or the vertical spacing `hex_size * 1.5`.
Out-of-range indexing (which would raise in Python) is totalised with a
default center; callers only pass indices below `tile_centers.length`. -/
noncomputable def get_neighbors (b : HexBoard) (tile_idx : ℕ) : Finset ℕ :=
  (Finset.range b.tile_centers.length).filter fun idx =>
    idx ≠ tile_idx ∧
    (|Real.sqrt (((b.tile_centers.getD idx (0, 0)).1 - (b.tile_centers.getD tile_idx (0, 0)).1) ^ 2 +
        ((b.tile_centers.getD idx (0, 0)).2 - (b.tile_centers.getD tile_idx (0, 0)).2) ^ 2) -
        b.hex_size * Real.sqrt 3| < 2 ∨
     |Real.sqrt (((b.tile_centers.getD idx (0, 0)).1 - (b.tile_centers.getD tile_idx (0, 0)).1) ^ 2 +
        ((b.tile_centers.getD idx (0, 0)).2 - (b.tile_centers.getD tile_idx (0, 0)).2) ^ 2) -
        b.hex_size * 1.5| < 2)

/-- The per-tile transition of `HexBoard.on_touch_down` (src/main.py lines
98-109), indexed by the tile the touch resolved to: a revealed, in-range tile
moves the token there and reveals its neighbors, reporting `True`; any other
index leaves the board unchanged and reports `False` (in the source an
out-of-range or unrevealed index is never selected by the loop, so the touch
falls through to `super().on_touch_down`).  This is the spec's
`selectTile`. -/
noncomputable def selectTile (b : HexBoard) (t : ℕ) : HexBoard × Bool :=
  if t < b.tile_centers.length ∧ t ∈ b.revealed then
    ({ b with token_tile := some t, revealed := b.revealed ∪ get_neighbors b t }, true)
  else (b, false)

/-- The search loop of `HexBoard.on_touch_down` (src/main.py lines 99-108)
with its running index: the first index whose hex contains the touch point
AND which is already revealed is returned; unrevealed containing tiles are
skipped (`if idx in self.revealed` guards the body but not the loop). -/
noncomputable def hitAux (size : ℝ) (rev : Finset ℕ) (px py : ℝ) :
    ℕ → List (ℝ × ℝ) → Option ℕ
  | _, [] => none
  | i, c :: rest =>
      if point_in_hex px py c.1 c.2 size ∧ i ∈ rev then some i
      else hitAux size rev px py (i + 1) rest

/-- The tile located by `HexBoard.on_touch_down`'s loop, starting from
index 0. -/
noncomputable def hitTile (size : ℝ) (rev : Finset ℕ) (px py : ℝ)
    (centers : List (ℝ × ℝ)) : Option ℕ :=
  hitAux size rev px py 0 centers

/-- `HexBoard.on_touch_down` (src/main.py lines 98-109) as a state
transition: locate the touched tile and apply the per-tile transition; a miss
leaves the board unchanged and reports `False`. -/
noncomputable def on_touch_down (b : HexBoard) (px py : ℝ) : HexBoard × Bool :=
  match hitTile b.hex_size b.revealed px py b.tile_centers with
  | some idx => selectTile b idx
  | none => (b, false)

/-- Spec-side hit tester, following the spec's words (section 4.4): iterate
tile centers in TileIndex order and return the first tile whose
`pointInHex(point, center, hexSize)` holds, with no reference to the revealed
set.  Stated separately from `hitTile` so the two can be compared. -/
noncomputable def locateAux (size px py : ℝ) : ℕ → List (ℝ × ℝ) → Option ℕ
  | _, [] => none
  | i, c :: rest =>
      if point_in_hex px py c.1 c.2 size then some i
      else locateAux size px py (i + 1) rest

/-- Spec-side `locateTile(point, tileCenters, hexSize)` (section 4.4). -/
noncomputable def locateTile (px py : ℝ) (tileCenters : List (ℝ × ℝ)) (hexSize : ℝ) :
    Option ℕ :=
  locateAux hexSize px py 0 tileCenters

/-- A sequence of `selectTile` calls applied in order, keeping the board. -/
noncomputable def applySelects (b : HexBoard) (ts : List ℕ) : HexBoard :=
  ts.foldl (fun bd t => (selectTile bd t).1) b

/-- C1 (counterexample): the claim says board construction fails with
`InvalidConfiguration` when the starting visible tile is outside
`[0, totalTiles)` and that no board is created; but `HexBoard.__init__`
validates nothing: with `rowPattern = [3,4,5,4,3]` (19 tiles) and start tile
1000 a board is created whose revealed set is `{1000}`, out of range. -/
theorem init_accepts_out_of_range_start :
    (HexBoard.init 45 [3, 4, 5, 4, 3] 1000 false).revealed = {1000} ∧
    ¬ 1000 < totalTiles [3, 4, 5, 4, 3] := by
  constructor
  · rfl
  · decide

/-- C1 (amended): board construction never fails: `HexBoard.__init__`
performs no validation of the row pattern, the hex size or the starting
visible tile, and for every input (however malformed) it creates a board with
`revealed = {start_visible_tile}`, no token and no tile centers. -/
theorem init_no_validation (hs : ℝ) (pattern : List ℕ) (start : ℕ) (dev : Bool) :
    (HexBoard.init hs pattern start dev).revealed = {start} ∧
    (HexBoard.init hs pattern start dev).token_tile = none ∧
    (HexBoard.init hs pattern start dev).tile_centers = [] ∧
    (HexBoard.init hs pattern start dev).rows_patterns = pattern := by
  exact ⟨rfl, rfl, rfl, rfl⟩

/-- C2 (counterexample): the claim says `initialize` fails with
`InvalidStartTile` when the start tile is outside `[0, totalTiles)`; but with
`rowPattern = [3,4,5,4,3]` and start tile 1000 a board is produced, with
`revealed = {1000}` and the token at 1000. -/
theorem build_accepts_out_of_range_start :
    (build [3, 4, 5, 4, 3] 45 1000).revealed = {1000} ∧
    (build [3, 4, 5, 4, 3] 45 1000).token_tile = some 1000 ∧
    ¬ 1000 < totalTiles [3, 4, 5, 4, 3] := by
  refine ⟨rfl, rfl, by decide⟩

/-- C2 (amended): for every start tile, in range or not,
`initialize(rowPattern, hexSize, startTile)` (the construction performed by
`HexApp.build`) produces a board with `revealed = {startTile}` and
`token = at(startTile)`; there is no `InvalidStartTile` check. -/
theorem build_sets_token_and_revealed (pattern : List ℕ) (hs : ℝ) (start : ℕ) :
    (build pattern hs start).revealed = {start} ∧
    (build pattern hs start).token_tile = some start := by
  exact ⟨rfl, rfl⟩

/-- C8: `point_in_hex` rejects whenever the vertical offset `dy = |py - hy|`
exceeds `size`, and otherwise accepts exactly when the horizontal offset
`dx = |px - hx|` satisfies `dx <= sqrt(3) * (size - dy)`. -/
theorem point_in_hex_spec (px py hx hy size : ℝ) :
    (|py - hy| > size → ¬ point_in_hex px py hx hy size) ∧
    (|py - hy| ≤ size →
      (point_in_hex px py hx hy size ↔ |px - hx| ≤ Real.sqrt 3 * (size - |py - hy|))) := by
  constructor
  · intro h
    simp [point_in_hex, if_pos h]
  · intro h
    rw [point_in_hex, if_neg (not_lt.mpr h)]

/-- C8 witness: the characterisation evaluated at the concrete input
`point = (5, 0)`, `center = (0, 0)`, `size = 1`. -/
theorem point_in_hex_spec_witness :
    |(0 : ℝ) - 0| ≤ 1 ∧
    (point_in_hex 5 0 0 0 1 ↔ |(5 : ℝ) - 0| ≤ Real.sqrt 3 * (1 - |(0 : ℝ) - 0|)) :=
  ⟨by norm_num, (point_in_hex_spec 5 0 0 0 1).2 (by norm_num)⟩


theorem rowCenters_length (cx sy wsp hsp : ℝ) (r n : ℕ) :
    (rowCenters cx sy wsp hsp r n).length = n := by
  rw [rowCenters]
  simp only [List.length_map, List.length_range]

theorem rowCenters_getD (cx sy wsp hsp : ℝ) (r n c : ℕ) (hc : c < n) :
    (rowCenters cx sy wsp hsp r n).getD c (0, 0) =
      (cx + -(((n : ℝ) - 1) * wsp) / 2 + (c : ℝ) * wsp, sy - (r : ℝ) * hsp) := by
  rw [rowCenters, List.getD_eq_getElem _ _ (by simp only [List.length_map, List.length_range]; exact hc)]
  simp only [List.getElem_map, List.getElem_range]

theorem layoutRows_length (cx sy wsp hsp : ℝ) :
    ∀ (pat : List ℕ) (r0 : ℕ), (layoutRows cx sy wsp hsp r0 pat).length = pat.sum := by
  intro pat
  induction pat with
  | nil => intro r0; rfl
  | cons n rest ih =>
      intro r0
      simp only [layoutRows, List.length_append, rowCenters_length, ih, List.sum_cons]

theorem layoutRows_getD (cx sy wsp hsp : ℝ) :
    ∀ (pat : List ℕ) (r0 r c : ℕ), r < pat.length → c < pat.getD r 0 →
      (layoutRows cx sy wsp hsp r0 pat).getD ((pat.take r).sum + c) (0, 0) =
        (cx + -(((pat.getD r 0 : ℝ) - 1) * wsp) / 2 + (c : ℝ) * wsp,
         sy - ((r0 + r : ℕ) : ℝ) * hsp) := by
  intro pat
  induction pat with
  | nil => intro r0 r c hr; exact absurd hr (by simp)
  | cons n rest ih =>
      intro r0 r c hr hc
      cases r with
      | zero =>
          have hc0 : c < n := by simpa using hc
          simp only [layoutRows, List.take_zero, List.sum_nil, Nat.zero_add,
            List.getD_cons_zero, Nat.add_zero]
          rw [List.getD_append _ _ _ _ (by rw [rowCenters_length]; exact hc0)]
          exact rowCenters_getD cx sy wsp hsp r0 n c hc0
      | succ r' =>
          have hr' : r' < rest.length := by simpa using hr
          have hc' : c < rest.getD r' 0 := by simpa using hc
          simp only [layoutRows, List.take_succ_cons, List.sum_cons, List.getD_cons_succ]
          rw [Nat.add_assoc,
            List.getD_append_right _ _ _ _ (by rw [rowCenters_length]; exact Nat.le_add_right _ _),
            rowCenters_length, Nat.add_sub_cancel_left]
          rw [ih (r0 + 1) r' c hr' hc']
          have hnat : r0 + 1 + r' = r0 + (r' + 1) := by omega
          rw [hnat]

theorem generateLayout_length (pattern : List ℕ) (s x y w h : ℝ) :
    (generateLayout pattern s x y w h).length = totalTiles pattern := by
  rw [generateLayout, layoutRows_length, totalTiles]

theorem generateLayout_getD (pattern : List ℕ) (s x y w h : ℝ) (r c : ℕ)
    (hr : r < pattern.length) (hc : c < pattern.getD r 0) :
    (generateLayout pattern s x y w h).getD ((pattern.take r).sum + c) (0, 0) =
      (x + w / 2 + -(((pattern.getD r 0 : ℝ) - 1) * (s * Real.sqrt 3)) / 2 +
         (c : ℝ) * (s * Real.sqrt 3),
       y + h / 2 + ((pattern.length : ℝ) - 1) * (s * 1.5) / 2 - (r : ℝ) * (s * 1.5)) := by
  rw [generateLayout, layoutRows_getD _ _ _ _ pattern 0 r c hr hc]
  rw [Nat.zero_add]

/-- C9: `redraw`'s layout produces exactly `sum(rowPattern)` tile centers in
row-major order; the tile at row `r`, column `c` sits at
`x = cx - (count - 1) * wsp / 2 + c * wsp` with rows descending by the
vertical spacing from `start_y`; and for `rowPattern = [3,4,5,4,3]` there are
19 tiles, index 0 is the leftmost tile of row 0, index 2 the rightmost of
row 0, and index 3 the leftmost tile of row 1. -/
theorem generateLayout_spec :
    (∀ (pattern : List ℕ) (s x y w h : ℝ),
      (generateLayout pattern s x y w h).length = totalTiles pattern) ∧
    (∀ (pattern : List ℕ) (s x y w h : ℝ) (r c : ℕ),
      r < pattern.length → c < pattern.getD r 0 →
      (generateLayout pattern s x y w h).getD ((pattern.take r).sum + c) (0, 0) =
        (x + w / 2 + -(((pattern.getD r 0 : ℝ) - 1) * (s * Real.sqrt 3)) / 2 +
           (c : ℝ) * (s * Real.sqrt 3),
         y + h / 2 + ((pattern.length : ℝ) - 1) * (s * 1.5) / 2 - (r : ℝ) * (s * 1.5))) ∧
    (totalTiles [3, 4, 5, 4, 3] = 19 ∧
     ∀ (s x y w h : ℝ),
      (generateLayout [3, 4, 5, 4, 3] s x y w h).getD 0 (0, 0) =
        (x + w / 2 - s * Real.sqrt 3, y + h / 2 + 3 * s) ∧
      (generateLayout [3, 4, 5, 4, 3] s x y w h).getD 2 (0, 0) =
        (x + w / 2 + s * Real.sqrt 3, y + h / 2 + 3 * s) ∧
      (generateLayout [3, 4, 5, 4, 3] s x y w h).getD 3 (0, 0) =
        (x + w / 2 - 3 * (s * Real.sqrt 3) / 2, y + h / 2 + 3 * s / 2) ∧
      (0 < s →
        ((generateLayout [3, 4, 5, 4, 3] s x y w h).getD 0 (0, 0)).1 <
          ((generateLayout [3, 4, 5, 4, 3] s x y w h).getD 1 (0, 0)).1 ∧
        ((generateLayout [3, 4, 5, 4, 3] s x y w h).getD 1 (0, 0)).1 <
          ((generateLayout [3, 4, 5, 4, 3] s x y w h).getD 2 (0, 0)).1)) := by
  refine ⟨generateLayout_length, generateLayout_getD, by decide, ?_⟩
  intro s x y w h
  have h0 := generateLayout_getD [3, 4, 5, 4, 3] s x y w h 0 0 (by norm_num) (by norm_num)
  have h1 := generateLayout_getD [3, 4, 5, 4, 3] s x y w h 0 1 (by norm_num) (by norm_num)
  have h2 := generateLayout_getD [3, 4, 5, 4, 3] s x y w h 0 2 (by norm_num) (by norm_num)
  have h3 := generateLayout_getD [3, 4, 5, 4, 3] s x y w h 1 0 (by norm_num) (by norm_num)
  simp only [List.take_zero, List.sum_nil, List.take_succ_cons, List.sum_cons,
    List.getD_cons_zero, List.getD_cons_succ, List.length_cons, List.length_nil,
    Nat.zero_add, Nat.add_zero] at h0 h1 h2 h3
  refine ⟨?_, ?_, ?_, ?_⟩
  · rw [h0]
    simp only [Prod.mk.injEq]
    constructor <;> · push_cast; ring
  · rw [h2]
    simp only [Prod.mk.injEq]
    constructor <;> · push_cast; ring
  · rw [h3]
    simp only [Prod.mk.injEq]
    constructor <;> · push_cast; ring
  · intro hs
    have hw : 0 < s * Real.sqrt 3 :=
      mul_pos hs (Real.sqrt_pos.mpr (by norm_num))
    rw [h0, h1, h2]
    dsimp only
    push_cast
    constructor <;> nlinarith [hw]

/-- C9 witness: the row-major position formula applied to the concrete board
of the app (`rowPattern = [3,4,5,4,3]`, `hexSize = 45`, bounds
`(0, 0, 700, 700)`) at row 1, column 0 (tile index 3), together with the
ordering conjunct at `s = 45 > 0`. -/
theorem generateLayout_spec_witness :
    (1 < ([3, 4, 5, 4, 3] : List ℕ).length ∧ 0 < ([3, 4, 5, 4, 3] : List ℕ).getD 1 0 ∧
      (0 : ℝ) < 45) ∧
    (generateLayout [3, 4, 5, 4, 3] 45 0 0 700 700).getD
        ((([3, 4, 5, 4, 3] : List ℕ).take 1).sum + 0) (0, 0) =
      (0 + 700 / 2 + -(((([3, 4, 5, 4, 3] : List ℕ).getD 1 0 : ℝ) - 1) * (45 * Real.sqrt 3)) / 2 +
         ((0 : ℕ) : ℝ) * (45 * Real.sqrt 3),
       0 + 700 / 2 + ((([3, 4, 5, 4, 3] : List ℕ).length : ℝ) - 1) * (45 * 1.5) / 2 -
         ((1 : ℕ) : ℝ) * (45 * 1.5)) ∧
    ((generateLayout [3, 4, 5, 4, 3] 45 0 0 700 700).getD 0 (0, 0)).1 <
      ((generateLayout [3, 4, 5, 4, 3] 45 0 0 700 700).getD 1 (0, 0)).1 :=
  ⟨⟨by norm_num, by norm_num, by norm_num⟩,
   generateLayout_spec.2.1 [3, 4, 5, 4, 3] 45 0 0 700 700 1 0 (by norm_num) (by norm_num),
   ((generateLayout_spec.2.2.2 45 0 0 700 700).2.2.2 (by norm_num)).1⟩

theorem point_in_hex_self (px py size : ℝ) (hs : 0 ≤ size) :
    point_in_hex px py px py size := by
  rw [point_in_hex, if_neg (by simp only [sub_self, abs_zero, gt_iff_lt, not_lt]; exact hs)]
  simp only [sub_self, abs_zero, sub_zero]
  exact mul_nonneg (Real.sqrt_nonneg 3) hs

theorem locateAux_center (size px py : ℝ) (hsize : 0 ≤ size) :
    ∀ (cs : List (ℝ × ℝ)) (i k : ℕ), k < cs.length → cs.getD k (0, 0) = (px, py) →
      ∃ r, locateAux size px py i cs = some r ∧ r ≤ i + k := by
  intro cs
  induction cs with
  | nil => intro i k hk; exact absurd hk (by simp)
  | cons c rest ih =>
      intro i k hk hcenter
      by_cases hc : point_in_hex px py c.1 c.2 size
      · exact ⟨i, by simp only [locateAux, if_pos hc], Nat.le_add_right _ _⟩
      · cases k with
        | zero =>
            exfalso
            apply hc
            have h1 : c.1 = px := by
              have := congrArg Prod.fst hcenter; simpa using this
            have h2 : c.2 = py := by
              have := congrArg Prod.snd hcenter; simpa using this
            rw [h1, h2]
            exact point_in_hex_self px py size hsize
        | succ k' =>
            have hk' : k' < rest.length := by simpa using hk
            have hcenter' : rest.getD k' (0, 0) = (px, py) := by
              simpa [List.getD_cons_succ] using hcenter
            obtain ⟨r, hr, hle⟩ := ih (i + 1) k' hk' hcenter'
            refine ⟨r, ?_, by omega⟩
            simp only [locateAux, if_neg hc]
            exact hr

theorem locateAux_none (size px py : ℝ) :
    ∀ (cs : List (ℝ × ℝ)) (i : ℕ), (∀ c ∈ cs, size < |py - c.2|) →
      locateAux size px py i cs = none := by
  intro cs
  induction cs with
  | nil => intro i _; rfl
  | cons c rest ih =>
      intro i hfar
      have hc : ¬ point_in_hex px py c.1 c.2 size := by
        rw [point_in_hex, if_pos (hfar c (List.mem_cons_self c rest))]
        exact not_false
      simp only [locateAux, if_neg hc]
      exact ih (i + 1) (fun d hd => hfar d (List.mem_cons_of_mem c hd))

/-- C7 (amended): `locateTile` applied to the point exactly at tile `t`'s
center always locates a tile, whose index is at most `t`: it returns `t`
itself only when no earlier tile's (inclusive) approximate containment region
covers that center; and applied to a point vertically farther than `size`
from every tile center it returns none. -/
theorem locateTile_center_hit :
    (∀ (centers : List (ℝ × ℝ)) (size px py : ℝ) (t : ℕ),
      t < centers.length → centers.getD t (0, 0) = (px, py) → 0 ≤ size →
      ∃ r, locateTile px py centers size = some r ∧ r ≤ t) ∧
    (∀ (centers : List (ℝ × ℝ)) (size px py : ℝ),
      (∀ c ∈ centers, size < |py - c.2|) →
      locateTile px py centers size = none) := by
  constructor
  · intro centers size px py t ht hcenter hsize
    obtain ⟨r, hr, hle⟩ := locateAux_center size px py hsize centers 0 t ht hcenter
    exact ⟨r, hr, by omega⟩
  · intro centers size px py hfar
    exact locateAux_none size px py centers 0 hfar

/-- C7 witness: for the one-tile layout `[(0, 0)]` with `size = 1`, the
center point `(0, 0)` locates tile 0, and the far point `(0, 5)` locates
nothing. -/
theorem locateTile_center_hit_witness :
    (0 < [((0 : ℝ), (0 : ℝ))].length ∧ [((0 : ℝ), (0 : ℝ))].getD 0 (0, 0) = (0, 0) ∧
      (0 : ℝ) ≤ 1 ∧ ∀ c ∈ [((0 : ℝ), (0 : ℝ))], (1 : ℝ) < |5 - c.2|) ∧
    (∃ r, locateTile 0 0 [((0 : ℝ), (0 : ℝ))] 1 = some r ∧ r ≤ 0) ∧
    locateTile 0 5 [((0 : ℝ), (0 : ℝ))] 1 = none :=
  ⟨⟨by norm_num, rfl, by norm_num,
      (by intro c hc; simp only [List.mem_singleton] at hc; rw [hc]; norm_num)⟩,
   locateTile_center_hit.1 [((0 : ℝ), (0 : ℝ))] 1 0 0 0 (by norm_num) rfl (by norm_num),
   locateTile_center_hit.2 [((0 : ℝ), (0 : ℝ))] 1 0 5
     (by intro c hc; simp only [List.mem_singleton] at hc; rw [hc]; norm_num)⟩

theorem generateLayout_two :
    generateLayout [2] 1 0 0 0 0 = [(-(Real.sqrt 3 / 2), 0), (Real.sqrt 3 / 2, 0)] := by
  rw [generateLayout]
  simp only [layoutRows, List.append_nil, rowCenters]
  have hrange : List.range 2 = [0, 1] := rfl
  rw [hrange]
  simp only [List.map_cons, List.map_nil, List.length_cons, List.length_nil]
  norm_num
  constructor <;> ring

theorem point_in_hex_boundary_right :
    point_in_hex (Real.sqrt 3 / 2) 0 (-(Real.sqrt 3 / 2)) 0 1 := by
  rw [point_in_hex, if_neg (by norm_num)]
  have h3 : |Real.sqrt 3 / 2 - -(Real.sqrt 3 / 2)| = Real.sqrt 3 := by
    rw [sub_neg_eq_add, abs_of_nonneg (by positivity)]
    ring
  rw [h3]
  simp only [sub_zero, abs_zero, sub_self]
  norm_num

theorem point_in_hex_boundary_left :
    point_in_hex (-(Real.sqrt 3 / 2)) 0 (Real.sqrt 3 / 2) 0 1 := by
  rw [point_in_hex, if_neg (by norm_num)]
  have h3 : |-(Real.sqrt 3 / 2) - Real.sqrt 3 / 2| = Real.sqrt 3 := by
    have : -(Real.sqrt 3 / 2) - Real.sqrt 3 / 2 = -Real.sqrt 3 := by ring
    rw [this, abs_neg, abs_of_nonneg (Real.sqrt_nonneg 3)]
  rw [h3]
  simp only [sub_zero, abs_zero, sub_self]
  norm_num

/-- C7 (counterexample): in the two-tile layout of `rowPattern = [2]`,
`hexSize = 1`, bounds `(0, 0, 0, 0)`, the point exactly at tile 1's center
`(sqrt 3 / 2, 0)` is located as tile 0, not tile 1: tile 1's center lies
exactly on tile 0's inclusive containment boundary
(`dx = sqrt 3 <= sqrt 3 * (1 - 0)`), and the earlier index wins. -/
theorem locateTile_center_not_self :
    generateLayout [2] 1 0 0 0 0 = [(-(Real.sqrt 3 / 2), 0), (Real.sqrt 3 / 2, 0)] ∧
    locateTile (Real.sqrt 3 / 2) 0 (generateLayout [2] 1 0 0 0 0) 1 = some 0 := by
  refine ⟨generateLayout_two, ?_⟩
  rw [generateLayout_two, locateTile]
  simp only [locateAux]
  rw [if_pos point_in_hex_boundary_right]

theorem hitAux_some_spec (size : ℝ) (rev : Finset ℕ) (px py : ℝ) :
    ∀ (cs : List (ℝ × ℝ)) (i r : ℕ), hitAux size rev px py i cs = some r →
      i ≤ r ∧ r - i < cs.length ∧ r ∈ rev ∧
      point_in_hex px py (cs.getD (r - i) (0, 0)).1 (cs.getD (r - i) (0, 0)).2 size ∧
      ∀ j, i ≤ j → j < r →
        ¬(j ∈ rev ∧
          point_in_hex px py (cs.getD (j - i) (0, 0)).1 (cs.getD (j - i) (0, 0)).2 size) := by
  intro cs
  induction cs with
  | nil => intro i r h; exact absurd h (by simp [hitAux])
  | cons c rest ih =>
      intro i r h
      by_cases hcond : point_in_hex px py c.1 c.2 size ∧ i ∈ rev
      · rw [hitAux, if_pos hcond, Option.some.injEq] at h
        subst h
        refine ⟨le_refl i, by simp, hcond.2, ?_, ?_⟩
        · simp only [Nat.sub_self, List.getD_cons_zero]
          exact hcond.1
        · intro j hij hji
          omega
      · rw [hitAux, if_neg hcond] at h
        obtain ⟨hle, hlen, hmem, hpih, hmin⟩ := ih (i + 1) r h
        have hir : i + 1 ≤ r := hle
        have hsub : r - i = (r - (i + 1)) + 1 := by omega
        refine ⟨by omega, by simp only [List.length_cons]; omega, hmem, ?_, ?_⟩
        · rw [hsub, List.getD_cons_succ]
          exact hpih
        · intro j hij hjr
          rcases Nat.eq_or_lt_of_le hij with heq | hlt
          · subst heq
            simp only [Nat.sub_self, List.getD_cons_zero]
            intro hbad
            exact hcond ⟨hbad.2, hbad.1⟩
          · have hsubj : j - i = (j - (i + 1)) + 1 := by omega
            rw [hsubj, List.getD_cons_succ]
            exact hmin j hlt hjr

theorem hitAux_none_iff (size : ℝ) (rev : Finset ℕ) (px py : ℝ) :
    ∀ (cs : List (ℝ × ℝ)) (i : ℕ), hitAux size rev px py i cs = none ↔
      ∀ k, k < cs.length →
        ¬((i + k) ∈ rev ∧
          point_in_hex px py (cs.getD k (0, 0)).1 (cs.getD k (0, 0)).2 size) := by
  intro cs
  induction cs with
  | nil => intro i; simp [hitAux]
  | cons c rest ih =>
      intro i
      constructor
      · intro h k hk
        by_cases hcond : point_in_hex px py c.1 c.2 size ∧ i ∈ rev
        · rw [hitAux, if_pos hcond] at h
          exact absurd h (by simp)
        · rw [hitAux, if_neg hcond] at h
          cases k with
          | zero =>
              simp only [Nat.add_zero, List.getD_cons_zero]
              intro hbad
              exact hcond ⟨hbad.2, hbad.1⟩
          | succ k' =>
              have hk' : k' < rest.length := by simpa using hk
              have := (ih (i + 1)).mp h k' hk'
              simp only [List.getD_cons_succ]
              have harith : i + (k' + 1) = i + 1 + k' := by omega
              rw [harith]
              exact this
      · intro hall
        have hcond : ¬(point_in_hex px py c.1 c.2 size ∧ i ∈ rev) := by
          have h0 := hall 0 (by simp)
          simp only [Nat.add_zero, List.getD_cons_zero] at h0
          intro hbad
          exact h0 ⟨hbad.2, hbad.1⟩
        rw [hitAux, if_neg hcond]
        refine (ih (i + 1)).mpr ?_
        intro k hk
        have := hall (k + 1) (by simpa using Nat.succ_lt_succ hk)
        simp only [List.getD_cons_succ] at this ⊢
        have harith : i + 1 + k = i + (k + 1) := by omega
        rw [harith]
        exact this

/-- C4 (amended): the touch handler's hit test (`on_touch_down`'s loop)
returns the first tile in TileIndex iteration order whose `pointInHex` test
holds AND which is already revealed — unrevealed containing tiles are
skipped, so the result depends on the revealed set; it returns none exactly
when no revealed tile's test holds; when a point satisfies the containment
test of several revealed tiles, the earliest revealed TileIndex wins. -/
theorem hitTile_first_revealed_match (centers : List (ℝ × ℝ)) (size px py : ℝ)
    (rev : Finset ℕ) :
    (∀ i, hitTile size rev px py centers = some i →
      i < centers.length ∧ i ∈ rev ∧
      point_in_hex px py (centers.getD i (0, 0)).1 (centers.getD i (0, 0)).2 size ∧
      ∀ j, j < i →
        ¬(j ∈ rev ∧
          point_in_hex px py (centers.getD j (0, 0)).1 (centers.getD j (0, 0)).2 size)) ∧
    (hitTile size rev px py centers = none ↔
      ∀ j, j < centers.length →
        ¬(j ∈ rev ∧
          point_in_hex px py (centers.getD j (0, 0)).1 (centers.getD j (0, 0)).2 size)) := by
  constructor
  · intro i h
    obtain ⟨_, hlen, hmem, hpih, hmin⟩ := hitAux_some_spec size rev px py centers 0 i h
    simp only [Nat.sub_zero] at hlen hpih
    refine ⟨hlen, hmem, hpih, ?_⟩
    intro j hj
    have := hmin j (Nat.zero_le j) hj
    simpa using this
  · rw [hitTile, hitAux_none_iff]
    constructor
    · intro hall j hj
      have := hall j hj
      simpa using this
    · intro hall k hk
      have := hall k hk
      simpa using this

/-- C4 (counterexample): in the two-tile layout of `rowPattern = [2]`,
`hexSize = 1`, the point at tile 0's center is contained in both tiles'
approximate regions; the spec-side `locateTile` returns tile 0 regardless of
the revealed set, but the source's hit test returns tile 1 when only tile 1
is revealed and tile 0 when tile 0 is revealed: the located tile depends on
the revealed set and is not the first containment match. -/
theorem hitTile_depends_on_revealed :
    locateTile (-(Real.sqrt 3 / 2)) 0 (generateLayout [2] 1 0 0 0 0) 1 = some 0 ∧
    hitTile 1 {1} (-(Real.sqrt 3 / 2)) 0 (generateLayout [2] 1 0 0 0 0) = some 1 ∧
    hitTile 1 {0, 1} (-(Real.sqrt 3 / 2)) 0 (generateLayout [2] 1 0 0 0 0) = some 0 := by
  have hself : point_in_hex (-(Real.sqrt 3 / 2)) 0 (-(Real.sqrt 3 / 2)) 0 1 :=
    point_in_hex_self _ _ _ (by norm_num)
  refine ⟨?_, ?_, ?_⟩
  · rw [generateLayout_two, locateTile]
    simp only [locateAux]
    rw [if_pos hself]
  · rw [generateLayout_two, hitTile]
    simp only [hitAux]
    rw [if_neg (by intro hbad; have := hbad.2; simp at this)]
    rw [if_pos ⟨point_in_hex_boundary_left, by simp⟩]
  · rw [generateLayout_two, hitTile]
    simp only [hitAux]
    rw [if_pos ⟨hself, by simp⟩]

/-- C10: the neighbor relation computed by `get_neighbors` is symmetric over
the indices of a board's tile-center list, because the center distance it
compares against both spacings is symmetric in the two tiles. -/
theorem get_neighbors_symm (b : HexBoard) (a c : ℕ)
    (ha : a < b.tile_centers.length) (hc : c < b.tile_centers.length) :
    c ∈ get_neighbors b a ↔ a ∈ get_neighbors b c := by
  simp only [get_neighbors, Finset.mem_filter, Finset.mem_range]
  rw [show ((b.tile_centers.getD c (0, 0)).1 - (b.tile_centers.getD a (0, 0)).1) ^ 2 +
      ((b.tile_centers.getD c (0, 0)).2 - (b.tile_centers.getD a (0, 0)).2) ^ 2 =
      ((b.tile_centers.getD a (0, 0)).1 - (b.tile_centers.getD c (0, 0)).1) ^ 2 +
      ((b.tile_centers.getD a (0, 0)).2 - (b.tile_centers.getD c (0, 0)).2) ^ 2 from by ring]
  constructor
  · rintro ⟨-, hne, hd⟩
    exact ⟨ha, hne.symm, hd⟩
  · rintro ⟨-, hne, hd⟩
    exact ⟨hc, hne.symm, hd⟩

/-- The board the app builds: `rowPattern = [3,4,5,4,3]`, `hexSize = 45`,
starting visible tile 7, laid out in a 700 x 700 window at the origin. -/
noncomputable def bd19 : HexBoard :=
  redraw (build [3, 4, 5, 4, 3] 45 7) 0 0 700 700

theorem bd19_centers :
    bd19.tile_centers = generateLayout [3, 4, 5, 4, 3] 45 0 0 700 700 := rfl

theorem bd19_length : bd19.tile_centers.length = 19 := by
  rw [bd19_centers, generateLayout_length]
  decide

/-- C10 witness: symmetry instantiated on the app's 19-tile board at the
index pair (0, 1). -/
theorem get_neighbors_symm_witness :
    0 < bd19.tile_centers.length ∧ 1 < bd19.tile_centers.length ∧
    (1 ∈ get_neighbors bd19 0 ↔ 0 ∈ get_neighbors bd19 1) := by
  have h0 : 0 < bd19.tile_centers.length := by rw [bd19_length]; norm_num
  have h1 : 1 < bd19.tile_centers.length := by rw [bd19_length]; norm_num
  exact ⟨h0, h1, get_neighbors_symm bd19 0 1 h0 h1⟩

/-- C3: selecting a tile index that is out of range or not revealed leaves
the board (token and revealed set included) unchanged and reports
`handled = false`. -/
theorem selectTile_invalid_noop (b : HexBoard) (t : ℕ)
    (h : b.tile_centers.length ≤ t ∨ t ∉ b.revealed) :
    selectTile b t = (b, false) := by
  rw [selectTile, if_neg]
  rintro ⟨hlt, hmem⟩
  rcases h with h | h
  · omega
  · exact h hmem

/-- C3 witness: `selectTile(1000)` on the app's 19-tile board mutates
nothing and reports `handled = false`. -/
theorem selectTile_invalid_noop_witness :
    (bd19.tile_centers.length ≤ 1000 ∨ 1000 ∉ bd19.revealed) ∧
    selectTile bd19 1000 = (bd19, false) := by
  have h : bd19.tile_centers.length ≤ 1000 ∨ 1000 ∉ bd19.revealed := by
    left
    rw [bd19_length]
    norm_num
  exact ⟨h, selectTile_invalid_noop bd19 1000 h⟩

theorem selectTile_centers (b : HexBoard) (t : ℕ) :
    (selectTile b t).1.tile_centers = b.tile_centers := by
  rw [selectTile]
  split <;> rfl

theorem selectTile_revealed_mono (b : HexBoard) (t : ℕ) :
    b.revealed ⊆ (selectTile b t).1.revealed := by
  rw [selectTile]
  split
  · exact Finset.subset_union_left
  · exact subset_rfl

theorem applySelects_inv (P : HexBoard → Prop)
    (hstep : ∀ b t, P b → P (selectTile b t).1) :
    ∀ (ts : List ℕ) (b : HexBoard), P b → P (applySelects b ts) := by
  intro ts
  induction ts with
  | nil => intro b hb; exact hb
  | cons t rest ih =>
      intro b hb
      exact ih (selectTile b t).1 (hstep b t hb)

/-- C5: the revealed set grows monotonically under every `selectTile` call,
and on a board constructed with an in-range starting visible tile it stays a
subset of `[0, totalTiles)` under every sequence of `selectTile` calls. -/
theorem revealed_monotone_and_bounded :
    (∀ (b : HexBoard) (t : ℕ), b.revealed ⊆ (selectTile b t).1.revealed) ∧
    (∀ (pattern : List ℕ) (hs x y w h : ℝ) (start : ℕ) (ts : List ℕ),
      start < totalTiles pattern →
      (applySelects (redraw (build pattern hs start) x y w h) ts).revealed ⊆
        Finset.range (totalTiles pattern)) := by
  constructor
  · exact selectTile_revealed_mono
  · intro pattern hs x y w h start ts hstart
    have hstep : ∀ b t,
        (b.revealed ⊆ Finset.range b.tile_centers.length ∧
          b.tile_centers.length = totalTiles pattern) →
        ((selectTile b t).1.revealed ⊆ Finset.range (selectTile b t).1.tile_centers.length ∧
          (selectTile b t).1.tile_centers.length = totalTiles pattern) := by
      intro b t hb
      rw [selectTile_centers]
      refine ⟨?_, hb.2⟩
      rw [selectTile]
      split
      · exact Finset.union_subset hb.1 (Finset.filter_subset _ _)
      · exact hb.1
    have hlen0 : (redraw (build pattern hs start) x y w h).tile_centers.length =
        totalTiles pattern := by
      show (generateLayout pattern hs x y w h).length = totalTiles pattern
      exact generateLayout_length pattern hs x y w h
    have hinit : (redraw (build pattern hs start) x y w h).revealed ⊆
        Finset.range (redraw (build pattern hs start) x y w h).tile_centers.length ∧
        (redraw (build pattern hs start) x y w h).tile_centers.length = totalTiles pattern := by
      refine ⟨?_, hlen0⟩
      rw [hlen0]
      show ({start} : Finset ℕ) ⊆ Finset.range (totalTiles pattern)
      rw [Finset.singleton_subset_iff, Finset.mem_range]
      exact hstart
    have hfin := applySelects_inv _ hstep ts _ hinit
    rw [hfin.2] at hfin
    exact hfin.1

/-- C5 witness: the bound applied to the app's board (start tile 7, in range
for 19 tiles) after the call sequence `[7, 1000]`. -/
theorem revealed_monotone_and_bounded_witness :
    7 < totalTiles [3, 4, 5, 4, 3] ∧
    (applySelects (redraw (build [3, 4, 5, 4, 3] 45 7) 0 0 700 700) [7, 1000]).revealed ⊆
      Finset.range (totalTiles [3, 4, 5, 4, 3]) :=
  ⟨by decide,
   revealed_monotone_and_bounded.2 [3, 4, 5, 4, 3] 45 0 0 700 700 7 [7, 1000] (by decide)⟩

/-- C6: after any `selectTile` call that reports `handled = true` the token
sits on a revealed tile; and on any board constructed by the app, under
every sequence of `selectTile` calls, whenever the token is set it is a
member of the revealed set. -/
theorem token_in_revealed :
    (∀ (b : HexBoard) (t : ℕ), (selectTile b t).2 = true →
      ∃ tok, (selectTile b t).1.token_tile = some tok ∧
        tok ∈ (selectTile b t).1.revealed) ∧
    (∀ (pattern : List ℕ) (hs x y w h : ℝ) (start : ℕ) (ts : List ℕ) (u : ℕ),
      (applySelects (redraw (build pattern hs start) x y w h) ts).token_tile = some u →
      u ∈ (applySelects (redraw (build pattern hs start) x y w h) ts).revealed) := by
  constructor
  · intro b t h
    by_cases hcond : t < b.tile_centers.length ∧ t ∈ b.revealed
    · rw [selectTile, if_pos hcond]
      exact ⟨t, rfl, Finset.mem_union_left _ hcond.2⟩
    · rw [selectTile, if_neg hcond] at h
      exact absurd h (by simp)
  · intro pattern hs x y w h start ts u
    have hstep : ∀ b t,
        (∀ v, b.token_tile = some v → v ∈ b.revealed) →
        (∀ v, (selectTile b t).1.token_tile = some v → v ∈ (selectTile b t).1.revealed) := by
      intro b t hb v hv
      by_cases hcond : t < b.tile_centers.length ∧ t ∈ b.revealed
      · rw [selectTile, if_pos hcond] at hv ⊢
        simp only [Option.some.injEq] at hv
        subst hv
        exact Finset.mem_union_left _ hcond.2
      · rw [selectTile, if_neg hcond] at hv ⊢
        exact hb v hv
    have hinit : ∀ v, (redraw (build pattern hs start) x y w h).token_tile = some v →
        v ∈ (redraw (build pattern hs start) x y w h).revealed := by
      intro v hv
      rw [show (redraw (build pattern hs start) x y w h).token_tile = some start from rfl]
        at hv
      simp only [Option.some.injEq] at hv
      subst hv
      show start ∈ ({start} : Finset ℕ)
      exact Finset.mem_singleton_self start
    exact applySelects_inv _ hstep ts _ hinit u

/-- C6 witness: on the app's board, `selectTile 7` is handled and leaves the
token on a revealed tile, and the initial board's token (tile 7) is
revealed. -/
theorem token_in_revealed_witness :
    (selectTile (redraw (build [3, 4, 5, 4, 3] 45 7) 0 0 700 700) 7).2 = true ∧
    (∃ tok,
      (selectTile (redraw (build [3, 4, 5, 4, 3] 45 7) 0 0 700 700) 7).1.token_tile =
        some tok ∧
      tok ∈ (selectTile (redraw (build [3, 4, 5, 4, 3] 45 7) 0 0 700 700) 7).1.revealed) ∧
    (applySelects (redraw (build [3, 4, 5, 4, 3] 45 7) 0 0 700 700) []).token_tile =
      some 7 ∧
    7 ∈ (applySelects (redraw (build [3, 4, 5, 4, 3] 45 7) 0 0 700 700) []).revealed := by
  have hcond : 7 < (redraw (build [3, 4, 5, 4, 3] 45 7) 0 0 700 700).tile_centers.length ∧
      7 ∈ (redraw (build [3, 4, 5, 4, 3] 45 7) 0 0 700 700).revealed := by
    constructor
    · show 7 < (generateLayout [3, 4, 5, 4, 3] 45 0 0 700 700).length
      rw [generateLayout_length]
      decide
    · show (7 : ℕ) ∈ ({7} : Finset ℕ)
      decide
  have hsel : (selectTile (redraw (build [3, 4, 5, 4, 3] 45 7) 0 0 700 700) 7).2 = true := by
    rw [selectTile, if_pos hcond]
  have htok : (applySelects (redraw (build [3, 4, 5, 4, 3] 45 7) 0 0 700 700) []).token_tile =
      some 7 := rfl
  exact ⟨hsel, token_in_revealed.1 _ 7 hsel, htok,
    token_in_revealed.2 [3, 4, 5, 4, 3] 45 0 0 700 700 7 [] 7 htok⟩

/-- C4 witness: the first-revealed-match characterisation applied to the
one-tile layout `[(0, 0)]` with tile 0 revealed and the touch at its
center, where the hit test returns tile 0. -/
theorem hitTile_first_revealed_match_witness :
    hitTile 1 {0} 0 0 [((0 : ℝ), (0 : ℝ))] = some 0 ∧
    (0 < [((0 : ℝ), (0 : ℝ))].length ∧ (0 : ℕ) ∈ ({0} : Finset ℕ) ∧
      point_in_hex 0 0 ([((0 : ℝ), (0 : ℝ))].getD 0 (0, 0)).1
        ([((0 : ℝ), (0 : ℝ))].getD 0 (0, 0)).2 1 ∧
      ∀ j, j < 0 →
        ¬(j ∈ ({0} : Finset ℕ) ∧
          point_in_hex 0 0 ([((0 : ℝ), (0 : ℝ))].getD j (0, 0)).1
            ([((0 : ℝ), (0 : ℝ))].getD j (0, 0)).2 1)) := by
  have hhit : hitTile 1 {0} 0 0 [((0 : ℝ), (0 : ℝ))] = some 0 := by
    rw [hitTile]
    simp only [hitAux]
    rw [if_pos ⟨point_in_hex_self 0 0 1 (by norm_num), by decide⟩]
  exact ⟨hhit, (hitTile_first_revealed_match [((0 : ℝ), (0 : ℝ))] 1 0 0 {0}).1 0 hhit⟩
